import Mathlib

/-!
Verification development for the cp-font-gen repository.

The repository converts a configured character set into subset bitmap
fonts.  The correctness-critical parts modelled here are:

* the BDF encoding repair (fix_bdf_encodings in converter.py), modelled
  as a transformation on the list of text lines of the document (the
  list returned by readlines, each line keeping its trailing newline),
  and additionally at the byte level for the text-decoding behaviour;
* Unicode range expansion (unicode_range_to_chars in utils.py);
* character collection (collect_characters in config.py);
* the orchestrator (generate_font in generator.py), with the external
  tools (fontTools subsetting, otf2bdf, bdftopcf) abstracted as an
  oracle giving each stage's success or failure per size.

Characters (Python 1-character strings) are modelled by their Unicode
code points (Nat); a Python character set becomes a Finset Nat, and
sorted(list(chars)) followed by ord becomes Finset.sort, since sorting
1-character strings coincides with sorting their code points.
-/

namespace CpFontGen

/-! ### Python string primitives

Models of the Python primitives used by converter.py:
str.split() with no argument (split on whitespace runs, dropping empty
tokens), int() parsing, and the decimal rendering used by f-strings.
Only ASCII digits are modelled for int(); Python additionally accepts
non-ASCII decimal digits, which never occur in BDF documents.
-/

/-- Code points Python's str.isspace holds for (the ones relevant to
ASCII text plus the common Unicode whitespace). -/
def pySpaceCps : List Nat :=
  [9, 10, 11, 12, 13, 28, 29, 30, 31, 32, 133, 160, 5760,
   8192, 8193, 8194, 8195, 8196, 8197, 8198, 8199, 8200, 8201, 8202,
   8232, 8233, 8239, 8287, 12288]

/-- Whitespace test on a code point, modelling str.isspace. -/
def isPySpaceCp (cp : Nat) : Bool := cp ∈ pySpaceCps

/-- Whitespace test on a character. -/
def isPySpace (c : Char) : Bool := isPySpaceCp c.toNat

/-- ASCII decimal digit test. -/
def isDig (c : Char) : Bool := 48 ≤ c.toNat && c.toNat ≤ 57

/-- Value of an ASCII decimal digit. -/
def digitVal (c : Char) : Nat := c.toNat - 48

/-- Helper for pySplit: scans the line, building the current token in
acc (reversed). -/
def pySplitAux : List Char → List Char → List (List Char)
  | [], acc => if acc = [] then [] else [acc.reverse]
  | c :: rest, acc =>
    if isPySpace c then
      if acc = [] then pySplitAux rest []
      else acc.reverse :: pySplitAux rest []
    else pySplitAux rest (c :: acc)

/-- Python str.split() with no separator: split on runs of whitespace,
dropping empty tokens. -/
def pySplit (l : List Char) : List (List Char) := pySplitAux l []

/-- Digit-run parser shared by int() with bases 10 and 16: consumes
digits, allowing single underscores between digits (Python's numeric
literal grammar), accumulating the value. -/
def parseDigitsRest (base : Nat) (isD : Char → Bool) (val : Char → Nat)
    (acc : Nat) : List Char → Option Nat
  | [] => some acc
  | c :: rest =>
    if isD c then parseDigitsRest base isD val (base * acc + val c) rest
    else if c = '_' then
      match rest with
      | d :: rest => if isD d then parseDigitsRest base isD val (base * acc + val d) rest else none
      | [] => none
    else none

/-- Unsigned digit-run parser: at least one digit, which must come
first (no leading underscore). -/
def parseUnsigned (base : Nat) (isD : Char → Bool) (val : Char → Nat) :
    List Char → Option Nat
  | [] => none
  | c :: rest => if isD c then parseDigitsRest base isD val (val c) rest else none

/-- Python int(token) on a whitespace-free token: optional sign, then
decimal digits with optional single underscores between digits. -/
def pyInt (t : List Char) : Option Int :=
  match t with
  | [] => none
  | c :: rest =>
    if c = '+' then (parseUnsigned 10 isDig digitVal rest).map Int.ofNat
    else if c = '-' then (parseUnsigned 10 isDig digitVal rest).map (fun n => -(Int.ofNat n))
    else (parseUnsigned 10 isDig digitVal (c :: rest)).map Int.ofNat

/-- ASCII hexadecimal digit test (upper or lower case). -/
def isHexDig (c : Char) : Bool :=
  (48 ≤ c.toNat && c.toNat ≤ 57) ||
  (65 ≤ c.toNat && c.toNat ≤ 70) ||
  (97 ≤ c.toNat && c.toNat ≤ 102)

/-- Value of an ASCII hexadecimal digit. -/
def hexDigitVal (c : Char) : Nat :=
  if c.toNat ≤ 57 then c.toNat - 48
  else if c.toNat ≤ 70 then c.toNat - 55
  else c.toNat - 87

/-- Python int(token, 16) on a whitespace-free unsigned body: optional
0x or 0X (possibly followed by one underscore), then hex digits with
optional single underscores between digits. -/
def pyHexUnsigned (t : List Char) : Option Nat :=
  match t with
  | c0 :: c1 :: rest =>
    if c0 = '0' ∧ (c1 = 'x' ∨ c1 = 'X') then
      match rest with
      | c2 :: rest2 =>
        if c2 = '_' then parseUnsigned 16 isHexDig hexDigitVal rest2
        else parseUnsigned 16 isHexDig hexDigitVal rest
      | [] => none
    else parseUnsigned 16 isHexDig hexDigitVal (c0 :: c1 :: rest)
  | _ => parseUnsigned 16 isHexDig hexDigitVal t

/-- Python int(token, 16): optional sign, then unsigned hex body. -/
def pyIntHex (t : List Char) : Option Int :=
  match t with
  | [] => none
  | c :: rest =>
    if c = '+' then (pyHexUnsigned rest).map Int.ofNat
    else if c = '-' then (pyHexUnsigned rest).map (fun n => -(Int.ofNat n))
    else (pyHexUnsigned (c :: rest)).map Int.ofNat

/-- Decimal digits of a natural number, most significant first: the
rendering performed by Python's str on a nonnegative int. -/
def decDigits (n : Nat) : List Char :=
  if n < 10 then [Char.ofNat (48 + n)]
  else decDigits (n / 10) ++ [Char.ofNat (48 + n % 10)]
  termination_by n
  decreasing_by exact Nat.div_lt_self (by omega) (by omega)

/-- Uppercase hexadecimal digits of a natural number, most significant
first. -/
def hexDigitChar (n : Nat) : Char :=
  if n < 10 then Char.ofNat (48 + n) else Char.ofNat (55 + n)

/-- Hex digit list of a natural number, uppercase, no padding. -/
def hexDigits (n : Nat) : List Char :=
  if n < 16 then [hexDigitChar n]
  else hexDigits (n / 16) ++ [hexDigitChar (n % 16)]
  termination_by n
  decreasing_by exact Nat.div_lt_self (by omega) (by omega)

/-- Python format {:04X}: uppercase hex padded with zeros to at least
four digits. -/
def hex4 (n : Nat) : List Char :=
  List.replicate (4 - (hexDigits n).length) '0' ++ hexDigits n

/-- Generic list prefix test (avoiding String.startsWith, so the whole
development reduces by computation). -/
def listStartsWith : List Char → List Char → Bool
  | [], _ => true
  | _ :: _, [] => false
  | p :: ps, c :: cs => p = c && listStartsWith ps cs

/-! ### Encoding repair (converter.py, fix_bdf_encodings)

A bitmap font document is modelled as the list of its text lines, each
line a list of characters keeping its trailing newline, exactly the
list Python's readlines returns.  The set of requested characters is a
Finset Nat of code points.

The source first computes sorted(list(chars)) and maps ord over it,
then scans the lines: a line starting with the marker "ENCODING " is
rewritten to "ENCODING n" (plus newline) where n is the next unused
sorted code point; when the code points are exhausted the line is kept
unchanged; all other lines pass through.  int(line.split()[1]) is
evaluated on every rewritten line; an IndexError (no second token) or
ValueError (not an integer) propagates to the catch-all handler, which
makes the function return False with the file untouched.  Failure is
modelled by Option: none corresponds to a False return (file left
unchanged), some out to a True return with out written back.
-/

/-- One text line of a bitmap font document. -/
abbrev Line := List Char

/-- The marker tested by line.startswith("ENCODING "). -/
def encodingMarker : Line := "ENCODING ".data

/-- Whether a line begins with the ENCODING marker. -/
def isEncodingLine (l : Line) : Bool := listStartsWith encodingMarker l

/-- The value int(line.split()[1]) of a line: none when the second
whitespace token is missing (IndexError) or is not a Python integer
literal (ValueError). -/
def encodingValue (l : Line) : Option Int :=
  match (pySplit l)[1]? with
  | some t => pyInt t
  | none => none

/-- The replacement line written by the source for code point cp:
f-string "ENCODING n" plus the newline appended by the source. -/
def mkEncodingLine (cp : Nat) : Line :=
  encodingMarker ++ decDigits cp ++ ['\n']

/-- The scan loop of fix_bdf_encodings: cps is the sorted code point
list, idx the running codepoint_idx.  Returns none as soon as
int(line.split()[1]) fails on a line that is being rewritten. -/
def goFix (cps : List Nat) : Nat → List Line → Option (List Line)
  | _, [] => some []
  | idx, l :: rest =>
    if isEncodingLine l then
      if idx < cps.length then
        match encodingValue l with
        | none => none
        | some _ =>
          (goFix cps (idx + 1) rest).map (fun out => mkEncodingLine (cps.getD idx 0) :: out)
      else
        (goFix cps idx rest).map (fun out => l :: out)
    else
      (goFix cps idx rest).map (fun out => l :: out)

/-- The sorted code point list sorted(list(chars)) mapped through ord:
for a set of single characters this is the ascending list of code
points. -/
def sortedCodepoints (chars : Finset Nat) : List Nat :=
  chars.sort (· ≤ ·)

/-- fix_bdf_encodings on the lines of a readable document: some out
when the function returns True after writing out, none when it returns
False leaving the file unchanged. -/
def fix_bdf_encodings (chars : Finset Nat) (lines : List Line) : Option (List Line) :=
  goFix (sortedCodepoints chars) 0 lines

/-- The document on disk after one call of fix_bdf_encodings: the
rewritten lines on success, the unchanged input on failure. -/
def runFix (chars : Finset Nat) (lines : List Line) : List Line :=
  (fix_bdf_encodings chars lines).getD lines

/-- Total companion of the scan: the lines fix_bdf_encodings writes
when no exception occurs. -/
def applyFix (cps : List Nat) : Nat → List Line → List Line
  | _, [] => []
  | idx, l :: rest =>
    if isEncodingLine l then
      if idx < cps.length then mkEncodingLine (cps.getD idx 0) :: applyFix cps (idx + 1) rest
      else l :: applyFix cps idx rest
    else l :: applyFix cps idx rest

/-- Success predicate of the scan: every line rewritten before the
code points run out carries a parsable integer value. -/
def goOk (cps : List Nat) : Nat → List Line → Bool
  | _, [] => true
  | idx, l :: rest =>
    if isEncodingLine l then
      if idx < cps.length then (encodingValue l).isSome && goOk cps (idx + 1) rest
      else goOk cps idx rest
    else goOk cps idx rest

/-- Number of lines bearing the ENCODING marker. -/
def countEnc (lines : List Line) : Nat := (lines.filter isEncodingLine).length

/-- The ENCODING-marker lines of a document, in document order. -/
def encLines (lines : List Line) : List Line := lines.filter isEncodingLine

/-! ### Structural lemmas about the repair scan -/

theorem listStartsWith_append (p rest : List Char) :
    listStartsWith p (p ++ rest) = true := by
  induction p with
  | nil => rfl
  | cons c cs ih => simp [listStartsWith, ih]

theorem isEncodingLine_mkEncodingLine (cp : Nat) :
    isEncodingLine (mkEncodingLine cp) = true := by
  unfold isEncodingLine mkEncodingLine
  rw [List.append_assoc]
  exact listStartsWith_append _ _

theorem option_map_ite {α β : Type} {c : Prop} [Decidable c] (f : α → β) (x : α) :
    Option.map f (if c then some x else none) = if c then some (f x) else none := by
  split <;> simp

theorem goFix_eq (cps : List Nat) (lines : List Line) : ∀ idx : Nat,
    goFix cps idx lines =
      if goOk cps idx lines then some (applyFix cps idx lines) else none := by
  induction lines with
  | nil => intro idx; simp [goFix, goOk, applyFix]
  | cons l rest ih =>
    intro idx
    simp only [goFix, goOk, applyFix]
    cases he : isEncodingLine l with
    | false => simp [ih, option_map_ite]
    | true =>
      by_cases hi : idx < cps.length
      · simp only [hi, if_true]
        cases hv : encodingValue l with
        | none => simp
        | some v => simp [ih, option_map_ite]
      · simp [hi, ih, option_map_ite]

theorem applyFix_length (cps : List Nat) (lines : List Line) : ∀ idx : Nat,
    (applyFix cps idx lines).length = lines.length := by
  induction lines with
  | nil => intro idx; simp [applyFix]
  | cons l rest ih =>
    intro idx
    simp only [applyFix]
    cases he : isEncodingLine l with
    | false => simp [ih]
    | true => by_cases hi : idx < cps.length <;> simp [hi, ih]

theorem goOk_of_le (cps : List Nat) (lines : List Line) : ∀ idx : Nat,
    cps.length ≤ idx → goOk cps idx lines = true := by
  induction lines with
  | nil => intro idx _; rfl
  | cons l rest ih =>
    intro idx h
    simp only [goOk]
    cases he : isEncodingLine l with
    | false => simp [ih idx h]
    | true => simp [Nat.not_lt.mpr h, ih idx h]

theorem goOk_of_forall (cps : List Nat) (lines : List Line)
    (h : ∀ l ∈ lines, isEncodingLine l = true → (encodingValue l).isSome = true) :
    ∀ idx : Nat, goOk cps idx lines = true := by
  induction lines with
  | nil => intro idx; rfl
  | cons l rest ih =>
    intro idx
    have hrest := ih (fun x hx => h x (List.mem_cons_of_mem l hx))
    simp only [goOk]
    cases he : isEncodingLine l with
    | false => simp [hrest]
    | true =>
      by_cases hi : idx < cps.length
      · simp [hi, h l (List.mem_cons_self l rest) he, hrest]
      · simp [hi, hrest]

theorem applyFix_of_countEnc_zero (cps : List Nat) (lines : List Line)
    (h : countEnc lines = 0) : ∀ idx : Nat, applyFix cps idx lines = lines := by
  induction lines with
  | nil => intro idx; rfl
  | cons l rest ih =>
    intro idx
    cases he : isEncodingLine l with
    | false =>
      have hrest : countEnc rest = 0 := by
        simpa [countEnc, List.filter, he] using h
      simp [applyFix, he, ih hrest]
    | true => simp [countEnc, List.filter, he] at h

theorem applyFix_idem (cps : List Nat) (lines : List Line) : ∀ idx : Nat,
    applyFix cps idx (applyFix cps idx lines) = applyFix cps idx lines := by
  induction lines with
  | nil => intro idx; rfl
  | cons l rest ih =>
    intro idx
    simp only [applyFix]
    cases he : isEncodingLine l with
    | false => simp [applyFix, he, ih]
    | true =>
      by_cases hi : idx < cps.length
      · simp [applyFix, he, hi, isEncodingLine_mkEncodingLine, ih]
      · simp [applyFix, he, hi, ih]

theorem countEnc_cons_of_enc {l : Line} (rest : List Line)
    (he : isEncodingLine l = true) : countEnc (l :: rest) = countEnc rest + 1 := by
  simp [countEnc, List.filter, he]

theorem countEnc_cons_of_not_enc {l : Line} (rest : List Line)
    (he : isEncodingLine l = false) : countEnc (l :: rest) = countEnc rest := by
  simp [countEnc, List.filter, he]

theorem applyFix_getElem? (cps : List Nat) (lines : List Line) : ∀ idx i : Nat,
    (applyFix cps idx lines)[i]? = (lines[i]?).map (fun l =>
      if isEncodingLine l = true ∧ idx + countEnc (lines.take i) < cps.length
      then mkEncodingLine (cps.getD (idx + countEnc (lines.take i)) 0) else l) := by
  induction lines with
  | nil => intro idx i; simp [applyFix]
  | cons l rest ih =>
    intro idx i
    cases i with
    | zero =>
      simp only [List.take_zero, List.getElem?_cons_zero, Option.map_some]
      cases he : isEncodingLine l with
      | false => simp [applyFix, he, countEnc]
      | true =>
        by_cases hi : idx < cps.length
        · simp [applyFix, he, hi, countEnc]
        · simp [applyFix, he, hi, countEnc]
    | succ j =>
      rw [List.take_succ_cons]
      cases he : isEncodingLine l with
      | false =>
        simp only [applyFix, he, Bool.false_eq_true, if_false, List.getElem?_cons_succ,
          countEnc_cons_of_not_enc _ he]
        exact ih idx j
      | true =>
        by_cases hi : idx < cps.length
        · simp only [applyFix, he, if_true, hi, List.getElem?_cons_succ,
            countEnc_cons_of_enc _ he]
          have harith : idx + (countEnc (rest.take j) + 1) = (idx + 1) + countEnc (rest.take j) := by
            omega
          rw [harith]
          exact ih (idx + 1) j
        · simp only [applyFix, he, if_true, hi, if_false, List.getElem?_cons_succ,
            countEnc_cons_of_enc _ he]
          rw [ih idx j]
          cases hx : rest[j]? with
          | none => simp
          | some a =>
            have h1 : ¬(idx + countEnc (rest.take j) < cps.length) := by omega
            have h2 : ¬(idx + (countEnc (rest.take j) + 1) < cps.length) := by omega
            simp [h1, h2]

theorem encLines_cons_of_enc {l : Line} (rest : List Line)
    (he : isEncodingLine l = true) : encLines (l :: rest) = l :: encLines rest := by
  simp [encLines, List.filter, he]

theorem encLines_cons_of_not_enc {l : Line} (rest : List Line)
    (he : isEncodingLine l = false) : encLines (l :: rest) = encLines rest := by
  simp [encLines, List.filter, he]

theorem length_encLines (lines : List Line) : (encLines lines).length = countEnc lines := rfl

theorem encLines_applyFix (cps : List Nat) (lines : List Line) : ∀ idx : Nat,
    encLines (applyFix cps idx lines) =
      ((cps.drop idx).take (countEnc lines)).map mkEncodingLine ++
        (encLines lines).drop (cps.length - idx) := by
  induction lines with
  | nil => intro idx; simp [applyFix, encLines, countEnc]
  | cons l rest ih =>
    intro idx
    cases he : isEncodingLine l with
    | false =>
      simp only [applyFix, he, Bool.false_eq_true, if_false,
        countEnc_cons_of_not_enc _ he, encLines_cons_of_not_enc _ he]
      exact ih idx
    | true =>
      by_cases hi : idx < cps.length
      · simp only [applyFix, he, if_true, hi,
          countEnc_cons_of_enc _ he, encLines_cons_of_enc _ he]
        rw [encLines_cons_of_enc _ (isEncodingLine_mkEncodingLine _), ih (idx + 1)]
        rw [List.drop_eq_getElem_cons hi, List.take_succ_cons, List.map_cons]
        have hgd : cps.getD idx 0 = cps[idx] := by
          simp [List.getD, List.getElem?_eq_getElem hi]
        have hsub : cps.length - idx = (cps.length - (idx + 1)) + 1 := by omega
        rw [hgd, hsub, List.drop_succ_cons]
        simp
      · simp only [applyFix, he, if_true, hi, if_false,
          countEnc_cons_of_enc _ he, encLines_cons_of_enc _ he]
        rw [ih idx]
        have hdrop : cps.drop idx = [] := List.drop_eq_nil_of_le (by omega)
        have hsub : cps.length - idx = 0 := by omega
        simp [hdrop, hsub]

/-! ### Decimal rendering and parsing round trip

These lemmas connect the decimal rendering used for the rewritten
"ENCODING n" lines with the int() model, so that the value of a
rewritten line can be computed back. -/

theorem isDig_toNat {c : Char} (h : isDig c = true) :
    48 ≤ c.toNat ∧ c.toNat ≤ 57 := by
  simpa [isDig, Bool.and_eq_true, decide_eq_true_eq] using h

theorem isDig_char_ofNat {m : Nat} (h : m < 10) :
    isDig (Char.ofNat (48 + m)) = true := by
  interval_cases m <;> decide

theorem digitVal_char_ofNat {m : Nat} (h : m < 10) :
    digitVal (Char.ofNat (48 + m)) = m := by
  interval_cases m <;> decide

theorem not_space_of_isDig {c : Char} (h : isDig c = true) :
    isPySpace c = false := by
  obtain ⟨h1, h2⟩ := isDig_toNat h
  simp only [isPySpace, isPySpaceCp, pySpaceCps]
  simp only [List.mem_cons, List.not_mem_nil, or_false, decide_eq_false_iff_not]
  omega

theorem ne_plus_of_isDig {c : Char} (h : isDig c = true) : c ≠ '+' := by
  intro hc; subst hc; simp [isDig] at h

theorem ne_minus_of_isDig {c : Char} (h : isDig c = true) : c ≠ '-' := by
  intro hc; subst hc; simp [isDig] at h

theorem decDigits_ne_nil (n : Nat) : decDigits n ≠ [] := by
  unfold decDigits
  split <;> simp

theorem decDigits_digits (n : Nat) : ∀ c ∈ decDigits n, isDig c = true := by
  induction n using decDigits.induct with
  | case1 n h =>
    unfold decDigits
    simp only [h, if_true, List.mem_singleton]
    rintro c rfl
    exact isDig_char_ofNat h
  | case2 n h ih =>
    unfold decDigits
    simp only [h, if_false, List.mem_append, List.mem_singleton]
    rintro c (hc | rfl)
    · exact ih c hc
    · exact isDig_char_ofNat (Nat.mod_lt _ (by omega))

/-- The accumulator step of the decimal digit fold. -/
def digitFold (a : Nat) (c : Char) : Nat := 10 * a + digitVal c

theorem foldl_decDigits (n : Nat) :
    (decDigits n).foldl digitFold 0 = n := by
  induction n using decDigits.induct with
  | case1 n h =>
    unfold decDigits
    simp only [h, if_true, List.foldl_cons, List.foldl_nil, digitFold]
    rw [digitVal_char_ofNat h]
    omega
  | case2 n h ih =>
    unfold decDigits
    simp only [h, if_false, List.foldl_append, List.foldl_cons, List.foldl_nil, ih, digitFold]
    rw [digitVal_char_ofNat (Nat.mod_lt _ (by omega))]
    omega

theorem parseDigitsRest_of_all (base : Nat) (isD : Char → Bool) (val : Char → Nat)
    (l : List Char) : ∀ acc : Nat,
    (∀ c ∈ l, isD c = true) →
    parseDigitsRest base isD val acc l =
      some (l.foldl (fun a c => base * a + val c) acc) := by
  induction l with
  | nil => intro acc _; rfl
  | cons c cs ih =>
    intro acc h
    have hc := h c (List.mem_cons_self c cs)
    unfold parseDigitsRest
    simp only [hc, if_true, List.foldl_cons]
    exact ih _ (fun x hx => h x (List.mem_cons_of_mem c hx))

theorem parseDigitsRest_digits (l : List Char) : ∀ acc : Nat,
    (∀ c ∈ l, isDig c = true) →
    parseDigitsRest 10 isDig digitVal acc l = some (l.foldl digitFold acc) :=
  parseDigitsRest_of_all 10 isDig digitVal l

theorem parseUnsigned_decDigits (n : Nat) :
    parseUnsigned 10 isDig digitVal (decDigits n) = some n := by
  obtain ⟨c, cs, hd⟩ : ∃ c cs, decDigits n = c :: cs := by
    cases h : decDigits n with
    | nil => exact absurd h (decDigits_ne_nil n)
    | cons c cs => exact ⟨c, cs, rfl⟩
  have hds := decDigits_digits n
  rw [hd] at hds
  have hc : isDig c = true := hds c (List.mem_cons_self c cs)
  rw [hd]
  simp only [parseUnsigned, hc, if_true]
  rw [parseDigitsRest_digits cs _ (fun x hx => hds x (List.mem_cons_of_mem c hx))]
  have : (c :: cs).foldl digitFold 0 = n := by rw [← hd]; exact foldl_decDigits n
  simp only [List.foldl_cons, digitFold, Nat.mul_zero, Nat.zero_add] at this
  rw [this]

theorem pyInt_decDigits (n : Nat) : pyInt (decDigits n) = some (Int.ofNat n) := by
  obtain ⟨c, cs, hd⟩ : ∃ c cs, decDigits n = c :: cs := by
    cases h : decDigits n with
    | nil => exact absurd h (decDigits_ne_nil n)
    | cons c cs => exact ⟨c, cs, rfl⟩
  have hds := decDigits_digits n
  have hc : isDig c = true := by rw [hd] at hds; exact hds c (List.mem_cons_self c cs)
  have hp := parseUnsigned_decDigits n
  rw [hd] at hp ⊢
  simp only [pyInt, ne_plus_of_isDig hc, ne_minus_of_isDig hc, if_false, hp]
  rfl

/-! ### Splitting the rewritten line -/

theorem pySplitAux_nonspace (t : List Char) : ∀ (rest acc : List Char),
    (∀ c ∈ t, isPySpace c = false) →
    pySplitAux (t ++ rest) acc = pySplitAux rest (t.reverse ++ acc) := by
  induction t with
  | nil => intro rest acc _; simp
  | cons c cs ih =>
    intro rest acc h
    have hc := h c (List.mem_cons_self c cs)
    simp only [List.cons_append, pySplitAux, hc, Bool.false_eq_true, if_false]
    exact (ih rest (c :: acc) (fun x hx => h x (List.mem_cons_of_mem c hx))).trans
      (by rw [List.reverse_cons, List.append_assoc, List.singleton_append])

theorem pySplit_mkEncodingLine (cp : Nat) :
    pySplit (mkEncodingLine cp) = ["ENCODING".data, decDigits cp] := by
  have hm : mkEncodingLine cp =
      "ENCODING".data ++ ([' '] ++ (decDigits cp ++ ['\n'])) := by
    unfold mkEncodingLine encodingMarker
    have : "ENCODING ".data = "ENCODING".data ++ [' '] := by decide
    rw [this]
    simp
  rw [pySplit, hm]
  rw [pySplitAux_nonspace _ _ _ (by decide)]
  have hsp : isPySpace ' ' = true := by decide
  simp only [List.cons_append, List.nil_append, pySplitAux, hsp, if_true]
  rw [if_neg (by decide)]
  have hrev : ("ENCODING".data.reverse ++ []).reverse = "ENCODING".data := by simp
  rw [hrev]
  show "ENCODING".data :: pySplitAux (decDigits cp ++ ['\n']) [] = _
  rw [pySplitAux_nonspace _ _ _ (fun c hc => not_space_of_isDig (decDigits_digits cp c hc))]
  have hnl : isPySpace '\n' = true := by decide
  simp only [pySplitAux, hnl, if_true]
  have hne : ¬((decDigits cp).reverse ++ [] = []) := by
    simp [decDigits_ne_nil cp]
  rw [if_neg hne]
  simp

theorem encodingValue_mkEncodingLine (cp : Nat) :
    encodingValue (mkEncodingLine cp) = some (Int.ofNat cp) := by
  unfold encodingValue
  rw [pySplit_mkEncodingLine]
  simp only [List.getElem?_cons_succ, List.getElem?_cons_zero]
  exact pyInt_decDigits cp

theorem goOk_of_reachable (cps : List Nat) (lines : List Line) : ∀ idx : Nat,
    (∀ i, (h : i < lines.length) → isEncodingLine lines[i] = true →
      idx + countEnc (lines.take i) < cps.length → (encodingValue lines[i]).isSome = true) →
    goOk cps idx lines = true := by
  induction lines with
  | nil => intro idx _; rfl
  | cons l rest ih =>
    intro idx h
    simp only [goOk]
    cases he : isEncodingLine l with
    | false =>
      have := ih idx (fun i hi henc hcnt => by
        have h' := h (i + 1) (by simpa using Nat.succ_lt_succ hi)
        simp only [List.getElem_cons_succ, List.take_succ_cons,
          countEnc_cons_of_not_enc _ he] at h'
        exact h' henc hcnt)
      simp [this]
    | true =>
      by_cases hi : idx < cps.length
      · have h0 : (encodingValue l).isSome = true := by
          have h' := h 0 (by simp) (by simpa using he)
          simp only [List.take_zero] at h'
          exact h' (by simpa [countEnc] using hi)
        have hrest := ih (idx + 1) (fun i hilt henc hcnt => by
          have h' := h (i + 1) (by simpa using Nat.succ_lt_succ hilt)
          simp only [List.getElem_cons_succ, List.take_succ_cons,
            countEnc_cons_of_enc _ he] at h'
          exact h' henc (by omega))
        simp [hi, h0, hrest]
      · simp [hi, goOk_of_le cps rest idx (by omega)]

/-! ### Claim theorems for the encoding repair -/

/-- Claim C1: for every character set C and every document whose
ENCODING-marker lines all carry an integer value and number exactly
the size of C, fix_bdf_encodings succeeds and rewrites the ENCODING
records so that, in document order, they are exactly the lines
"ENCODING cp" for the code points cp of C sorted ascending; in
particular the i-th ENCODING record receives the i-th smallest code
point of C, and re-parsing the rewritten records yields exactly the
sorted code points. -/
theorem fix_bdf_encodings_matched_count (C : Finset Nat) (lines : List Line)
    (hwf : ∀ l ∈ lines, isEncodingLine l = true → (encodingValue l).isSome = true)
    (hcount : countEnc lines = C.card) :
    ∃ out, fix_bdf_encodings C lines = some out ∧
      encLines out = (sortedCodepoints C).map mkEncodingLine ∧
      (encLines out).map encodingValue =
        (sortedCodepoints C).map (fun cp => some (Int.ofNat cp)) := by
  have hlen : (sortedCodepoints C).length = C.card := Finset.length_sort _
  refine ⟨applyFix (sortedCodepoints C) 0 lines, ?_, ?_⟩
  · rw [fix_bdf_encodings, goFix_eq, if_pos (goOk_of_forall _ _ hwf 0)]
  · have henc : encLines (applyFix (sortedCodepoints C) 0 lines) =
        (sortedCodepoints C).map mkEncodingLine := by
      rw [encLines_applyFix]
      have hdrop : (encLines lines).drop ((sortedCodepoints C).length - 0) = [] :=
        List.drop_eq_nil_of_le (by rw [length_encLines]; omega)
      rw [List.drop_zero, hcount, ← hlen, List.take_length, hdrop, List.append_nil]
    refine ⟨henc, ?_⟩
    rw [henc, List.map_map]
    exact List.map_congr_left (fun cp _ => encodingValue_mkEncodingLine cp)

/-- Claim C1 witness: a concrete two-character repair where the
hypotheses hold. -/
theorem fix_bdf_encodings_matched_count_witness :
    ∃ out, fix_bdf_encodings ({48, 49} : Finset Nat)
        ["STARTFONT 2.1\n".data, "ENCODING 1\n".data, "BITMAP\n".data, "ENCODING 2\n".data] =
        some out ∧
      encLines out = (sortedCodepoints ({48, 49} : Finset Nat)).map mkEncodingLine ∧
      (encLines out).map encodingValue =
        (sortedCodepoints ({48, 49} : Finset Nat)).map (fun cp => some (Int.ofNat cp)) :=
  fix_bdf_encodings_matched_count ({48, 49} : Finset Nat)
    ["STARTFONT 2.1\n".data, "ENCODING 1\n".data, "BITMAP\n".data, "ENCODING 2\n".data]
    (by decide) (by decide)

/-- Claim C2 counterexample: the document consisting of the single
readable line "ENCODING x" makes fix_bdf_encodings return False (the
int() call raises ValueError, caught by the blanket handler), even
though no I/O failure is involved; the claim predicted success on all
malformed-but-readable documents. -/
theorem fix_bdf_encodings_malformed_returns_false :
    fix_bdf_encodings ({97} : Finset Nat) ["ENCODING x\n".data] = none := by
  have h : sortedCodepoints ({97} : Finset Nat) = [97] := by
    simp [sortedCodepoints]
  rw [fix_bdf_encodings, h]
  decide

/-- Claim C2 amended: fix_bdf_encodings returns False on I/O failure
or when a line starting with the ENCODING marker whose value is
missing or not an integer is reached while sorted code points remain
unassigned; when every ENCODING-marker line carries an integer value
the repair succeeds and returns True, and in particular a text file
with no ENCODING-marker lines is left unchanged with a True result. -/
theorem fix_bdf_encodings_wellformed_success (C : Finset Nat) (lines : List Line)
    (hwf : ∀ l ∈ lines, isEncodingLine l = true → (encodingValue l).isSome = true) :
    ∃ out, fix_bdf_encodings C lines = some out ∧ (countEnc lines = 0 → out = lines) := by
  refine ⟨applyFix (sortedCodepoints C) 0 lines, ?_, ?_⟩
  · rw [fix_bdf_encodings, goFix_eq, if_pos (goOk_of_forall _ _ hwf 0)]
  · intro h0
    exact applyFix_of_countEnc_zero _ _ h0 0

/-- Claim C2 amended witness: a plain text line with no ENCODING
marker is passed through unchanged with success. -/
theorem fix_bdf_encodings_wellformed_success_witness :
    ∃ out, fix_bdf_encodings ({65} : Finset Nat) ["hello world\n".data] = some out ∧
      (countEnc ["hello world\n".data] = 0 → out = ["hello world\n".data]) :=
  fix_bdf_encodings_wellformed_success ({65} : Finset Nat) ["hello world\n".data] (by decide)

/-- Claim C5: running the repair twice with the same character set
leaves the document exactly as after one run, whether the runs
succeed (values already correct are rewritten to themselves) or fail
(a failed run leaves the file untouched). -/
theorem fix_bdf_encodings_idempotent (C : Finset Nat) (lines : List Line) :
    runFix C (runFix C lines) = runFix C lines := by
  rcases hf : fix_bdf_encodings C lines with _ | out
  · simp [runFix, hf]
  · have h1 : goOk (sortedCodepoints C) 0 lines = true ∧
        out = applyFix (sortedCodepoints C) 0 lines := by
      rw [fix_bdf_encodings, goFix_eq] at hf
      by_cases h : goOk (sortedCodepoints C) 0 lines = true
      · rw [if_pos h] at hf
        exact ⟨h, (Option.some_inj.mp hf).symm⟩
      · rw [if_neg h] at hf
        cases hf
    obtain ⟨hok, hout⟩ := h1
    simp only [runFix, hf, Option.getD_some]
    rw [fix_bdf_encodings, goFix_eq]
    by_cases h2 : goOk (sortedCodepoints C) 0 out = true
    · rw [if_pos h2, Option.getD_some, hout, applyFix_idem]
    · rw [if_neg h2]
      rfl

/-- Claim C6: when the number of ENCODING records differs from the
size of the character set the repair still succeeds (given that every
ENCODING-marker line reached while code points remain carries an
integer value): with more records than characters, every line whose
ENCODING ordinal is at least the set size — in particular every
excess ENCODING record — is left unmodified; with fewer records the
trailing code points are simply unused and no error occurs. -/
theorem fix_bdf_encodings_count_mismatch (C : Finset Nat) (lines : List Line)
    (hwf : ∀ i, (h : i < lines.length) → isEncodingLine lines[i] = true →
      countEnc (lines.take i) < C.card → (encodingValue lines[i]).isSome = true) :
    ∃ out, fix_bdf_encodings C lines = some out ∧ out.length = lines.length ∧
      ∀ i, C.card ≤ countEnc (lines.take i) → out[i]? = lines[i]? := by
  have hlen : (sortedCodepoints C).length = C.card := Finset.length_sort _
  refine ⟨applyFix (sortedCodepoints C) 0 lines, ?_, applyFix_length _ _ 0, ?_⟩
  · rw [fix_bdf_encodings, goFix_eq,
      if_pos (goOk_of_reachable _ _ 0 (fun i hi henc hcnt => hwf i hi henc (by omega)))]
  · intro i hge
    rw [applyFix_getElem?]
    cases hx : lines[i]? with
    | none => rfl
    | some l =>
      have hc : ¬(isEncodingLine l = true ∧ 0 + countEnc (lines.take i) <
          (sortedCodepoints C).length) := by
        rintro ⟨-, hlt⟩
        omega
      rw [Option.map_some', if_neg hc]

/-- Claim C6 witness: two ENCODING records against a single-character
set; the second record is untouched. -/
theorem fix_bdf_encodings_count_mismatch_witness :
    ∃ out, fix_bdf_encodings ({48} : Finset Nat)
        ["ENCODING 7\n".data, "ENCODING 9\n".data] = some out ∧
      out.length = (["ENCODING 7\n".data, "ENCODING 9\n".data] : List Line).length ∧
      ∀ i, ({48} : Finset Nat).card ≤
          countEnc ((["ENCODING 7\n".data, "ENCODING 9\n".data] : List Line).take i) →
        out[i]? = (["ENCODING 7\n".data, "ENCODING 9\n".data] : List Line)[i]? :=
  fix_bdf_encodings_count_mismatch ({48} : Finset Nat)
    ["ENCODING 7\n".data, "ENCODING 9\n".data] (by decide)

/-- Claim C7: for every character set and document, the repair leaves
every line that does not begin with the ENCODING marker unchanged in
the resulting document (position by position, with the line count
preserved), whether the run succeeds or fails. -/
theorem fix_bdf_encodings_preserves_other_lines (C : Finset Nat) (lines : List Line) :
    (runFix C lines).length = lines.length ∧
    ∀ (i : Nat) (l : Line), lines[i]? = some l → isEncodingLine l = false →
      (runFix C lines)[i]? = some l := by
  rcases hf : fix_bdf_encodings C lines with _ | out
  · exact ⟨by simp [runFix, hf], fun i l h _ => by simpa [runFix, hf] using h⟩
  · have hout : out = applyFix (sortedCodepoints C) 0 lines := by
      rw [fix_bdf_encodings, goFix_eq] at hf
      by_cases h : goOk (sortedCodepoints C) 0 lines = true
      · rw [if_pos h] at hf
        exact (Option.some_inj.mp hf).symm
      · rw [if_neg h] at hf
        cases hf
    constructor
    · simp only [runFix, hf, Option.getD_some, hout]
      exact applyFix_length _ _ 0
    · intro i l hx he
      simp only [runFix, hf, Option.getD_some, hout]
      rw [applyFix_getElem?, hx]
      simp [he]

/-- Claim C7 witness: a non-ENCODING line survives a successful
repair unchanged, at its original position. -/
theorem fix_bdf_encodings_preserves_other_lines_witness :
    (runFix ({48} : Finset Nat)
        ["STARTFONT 2.1\n".data, "ENCODING 1\n".data]).length =
      (["STARTFONT 2.1\n".data, "ENCODING 1\n".data] : List Line).length ∧
    (runFix ({48} : Finset Nat)
        ["STARTFONT 2.1\n".data, "ENCODING 1\n".data])[0]? =
      some ("STARTFONT 2.1\n".data) :=
  ⟨(fix_bdf_encodings_preserves_other_lines ({48} : Finset Nat)
      ["STARTFONT 2.1\n".data, "ENCODING 1\n".data]).1,
    (fix_bdf_encodings_preserves_other_lines ({48} : Finset Nat)
      ["STARTFONT 2.1\n".data, "ENCODING 1\n".data]).2 0 ("STARTFONT 2.1\n".data)
      (by decide) (by decide)⟩

/-! ### Byte-level model of the file round trip (claim C3)

The source opens the BDF file with a plain open(bdf_path, "r"), which
decodes with the interpreter's default text encoding (UTF-8 on the
supported platforms); there is no fallback decode.  A failed decode
raises UnicodeDecodeError inside readlines, which the blanket except
turns into a False return.  File contents are modelled as byte lists;
the decoder below models Python's strict UTF-8 codec (rejecting
stray continuation bytes, overlong forms, surrogates and values above
0x10FFFF).  Universal-newline translation is not modelled; the
documents involved use plain \x0a line endings. -/

/-- One step of strict UTF-8 decoding: given the leading byte and the
remaining bytes, yields the decoded code point and the bytes after
the sequence, or none on an invalid sequence (stray continuation
byte, truncated sequence, overlong form, surrogate, value above
0x10FFFF). -/
def utf8Step (b : Nat) (rest : List Nat) : Option (Nat × List Nat) :=
  let b1 := rest.getD 0 0
  let b2 := rest.getD 1 0
  let b3 := rest.getD 2 0
  if b < 0x80 then some (b, rest)
  else if b < 0xC2 then none
  else if b < 0xE0 then
    if 0x80 ≤ b1 ∧ b1 < 0xC0 then some ((b - 0xC0) * 64 + (b1 - 0x80), rest.drop 1)
    else none
  else if b < 0xF0 then
    if (0x80 ≤ b1 ∧ b1 < 0xC0) ∧ (0x80 ≤ b2 ∧ b2 < 0xC0) ∧
        (b = 0xE0 → 0xA0 ≤ b1) ∧ (b = 0xED → b1 < 0xA0) then
      some ((b - 0xE0) * 4096 + (b1 - 0x80) * 64 + (b2 - 0x80), rest.drop 2)
    else none
  else if b < 0xF5 then
    if (0x80 ≤ b1 ∧ b1 < 0xC0) ∧ (0x80 ≤ b2 ∧ b2 < 0xC0) ∧ (0x80 ≤ b3 ∧ b3 < 0xC0) ∧
        (b = 0xF0 → 0x90 ≤ b1) ∧ (b = 0xF4 → b1 < 0x90) then
      some ((b - 0xF0) * 262144 + (b1 - 0x80) * 4096 + (b2 - 0x80) * 64 + (b3 - 0x80),
        rest.drop 3)
    else none
  else none

set_option maxRecDepth 4000 in
theorem utf8Step_length {b : Nat} {rest : List Nat} {res : Nat × List Nat}
    (h : utf8Step b rest = some res) : res.2.length ≤ rest.length := by
  simp only [utf8Step] at h
  split_ifs at h <;> cases h <;> simp

/-- Strict UTF-8 decoding of a byte list, as performed by Python's
utf-8 codec: none models UnicodeDecodeError. -/
def utf8DecodeBytes : List Nat → Option (List Char)
  | [] => some []
  | b :: rest =>
    match h : utf8Step b rest with
    | none => none
    | some res =>
      (utf8DecodeBytes res.2).map (fun cs => Char.ofNat res.1 :: cs)
  termination_by l => l.length
  decreasing_by
    have := utf8Step_length h
    simp
    omega

/-- UTF-8 encoding of one character. -/
def utf8EncodeChar (c : Char) : List Nat :=
  let n := c.toNat
  if n < 0x80 then [n]
  else if n < 0x800 then [0xC0 + n / 64, 0x80 + n % 64]
  else if n < 0x10000 then [0xE0 + n / 4096, 0x80 + (n / 64) % 64, 0x80 + n % 64]
  else [0xF0 + n / 262144, 0x80 + (n / 4096) % 64, 0x80 + (n / 64) % 64, 0x80 + n % 64]

/-- UTF-8 encoding of a character list. -/
def utf8EncodeChars (cs : List Char) : List Nat :=
  (cs.map utf8EncodeChar).flatten

/-- Latin-1 decoding: every byte maps to the character of the same
code point (bytes are 0..255 by construction of file contents). -/
def latin1DecodeBytes (bytes : List Nat) : List Char :=
  bytes.map Char.ofNat

/-- Latin-1 encoding: characters up to code point 255 map to one byte
each; anything larger raises UnicodeEncodeError, modelled by none. -/
def latin1EncodeChars (cs : List Char) : Option (List Nat) :=
  cs.mapM (fun c => if c.toNat < 256 then some c.toNat else none)

/-- Splitting decoded text into lines as readlines does, each line
keeping its trailing newline. -/
def splitLinesKeepEnds : List Char → List Line
  | [] => []
  | c :: rest =>
    if c = '\n' then ['\n'] :: splitLinesKeepEnds rest
    else
      match splitLinesKeepEnds rest with
      | [] => [[c]]
      | l :: ls => (c :: l) :: ls

/-- fix_bdf_encodings at the byte level, as the source behaves: a
single decode with the default (UTF-8) codec; a decode failure is
caught by the blanket except and yields a False return (none), with
no fallback attempted. -/
def fix_bdf_encodings_file (chars : Finset Nat) (bytes : List Nat) : Option (List Nat) :=
  match utf8DecodeBytes bytes with
  | none => none
  | some cs =>
    match fix_bdf_encodings chars (splitLinesKeepEnds cs) with
    | none => none
    | some out => some (utf8EncodeChars out.flatten)

/-- Modelled from the spec: the text-decoding behaviour claimed in
section 4.4 (and exercised by the Issue 4 regression test), which is
absent from converter.py: attempt UTF-8 first; on decode failure fall
back to Latin-1; write the repaired document back with whichever
codec decoded it. -/
def fix_bdf_encodings_fileSpec (chars : Finset Nat) (bytes : List Nat) : Option (List Nat) :=
  match utf8DecodeBytes bytes with
  | some cs =>
    (fix_bdf_encodings chars (splitLinesKeepEnds cs)).map
      (fun out => utf8EncodeChars out.flatten)
  | none =>
    (fix_bdf_encodings chars (splitLinesKeepEnds (latin1DecodeBytes bytes))).bind
      (fun out => latin1EncodeChars out.flatten)

/-- The byte contents of a small BDF document whose metadata holds the
Latin-1 encoded copyright sign (byte 0xA9), as otf2bdf emits when the
source font's metadata holds one: the text
COMMENT \xa9 newline ENCODING 1 newline. -/
def latin1DocBytes : List Nat :=
  [67, 79, 77, 77, 69, 78, 84, 32, 0xA9, 10,
   69, 78, 67, 79, 68, 73, 78, 71, 32, 49, 10]

/-- Claim C3 (code bug): the source performs a single default-codec
(UTF-8) decode and returns False on the Latin-1 document the fallback
was meant to handle, while the decoding behaviour the specification
and the Issue 4 regression test describe (UTF-8 first, Latin-1 on
decode failure, re-encoded with the codec that succeeded) repairs the
document and preserves the 0xA9 metadata byte exactly. -/
theorem fix_bdf_encodings_missing_latin1_fallback :
    fix_bdf_encodings_file ({65} : Finset Nat) latin1DocBytes = none ∧
    fix_bdf_encodings_fileSpec ({65} : Finset Nat) latin1DocBytes =
      some [67, 79, 77, 77, 69, 78, 84, 32, 0xA9, 10,
            69, 78, 67, 79, 68, 73, 78, 71, 32, 54, 53, 10] := by
  have hdec : utf8DecodeBytes latin1DocBytes = none := by
    simp [latin1DocBytes, utf8DecodeBytes, utf8Step]
  have hsplit : splitLinesKeepEnds (latin1DecodeBytes latin1DocBytes) =
      ["COMMENT ©\n".data, "ENCODING 1\n".data] := by decide
  have hs : sortedCodepoints ({65} : Finset Nat) = [65] := by simp [sortedCodepoints]
  have h65 : decDigits 65 = ['6', '5'] := by simp [decDigits]
  have hmk : mkEncodingLine 65 = "ENCODING 65\n".data := by
    rw [mkEncodingLine, h65]; decide
  have he1 : isEncodingLine ("COMMENT ©\n".data) = false := by decide
  have he2 : isEncodingLine ("ENCODING 1\n".data) = true := by decide
  have hv : encodingValue ("ENCODING 1\n".data) = some 1 := by decide
  have hgo : goFix [65] 0 ["COMMENT ©\n".data, "ENCODING 1\n".data] =
      some ["COMMENT ©\n".data, "ENCODING 65\n".data] := by
    unfold goFix
    simp only [he1, Bool.false_eq_true, if_false]
    unfold goFix
    simp only [he2, if_true, hv]
    unfold goFix
    simp [hmk]
  have hfix : fix_bdf_encodings ({65} : Finset Nat)
      ["COMMENT ©\n".data, "ENCODING 1\n".data] =
      some ["COMMENT ©\n".data, "ENCODING 65\n".data] := by
    rw [fix_bdf_encodings, hs, hgo]
  constructor
  · simp [fix_bdf_encodings_file, hdec]
  · simp only [fix_bdf_encodings_fileSpec, hdec, hsplit, hfix, Option.bind_some]
    decide

/-! ### Unicode range expansion (utils.py, unicode_range_to_chars)

The source removes every occurrence of the substring "U+" (Python
str.replace, non-overlapping, left to right), then either splits on
"-" into exactly two halves and expands the inclusive range with
range(start, end + 1), or parses the whole remainder as one hex code
point.  Exceptions (a split that does not produce exactly two parts,
a non-hex half, a chr() argument outside 0..0x10FFFF) propagate to
the caller; they are modelled by none.  The produced set of
one-character strings is modelled as the Finset of code points. -/

/-- Python str.replace("U+", "") on a character list: removes
non-overlapping occurrences of 'U' '+' left to right. -/
def removeUPlus : List Char → List Char
  | [] => []
  | [c] => [c]
  | c1 :: c2 :: rest =>
    if c1 = 'U' ∧ c2 = '+' then removeUPlus rest
    else c1 :: removeUPlus (c2 :: rest)
  termination_by l => l.length
  decreasing_by all_goals (simp_wf; try omega)

/-- Python str.split("-") on a character list: splits at every dash,
keeping empty parts. -/
def splitDash : List Char → List (List Char)
  | [] => [[]]
  | c :: rest =>
    if c = '-' then [] :: splitDash rest
    else
      match splitDash rest with
      | [] => [[c]]
      | t :: ts => (c :: t) :: ts

/-- unicode_range_to_chars: expands "U+HHHH" or "U+HHHH-HHHH"; none
models an uncaught exception (malformed shape, non-hex value, or a
chr() argument outside 0..0x10FFFF). -/
def unicode_range_to_chars (s : List Char) : Option (Finset Nat) :=
  let rs := removeUPlus s
  if '-' ∈ rs then
    match splitDash rs with
    | [a, b] =>
      match pyIntHex a with
      | none => none
      | some sc =>
        match pyIntHex b with
        | none => none
        | some ec =>
          if sc ≤ ec then
            if 0 ≤ sc ∧ ec ≤ 0x10FFFF then
              some (List.range' sc.toNat (ec.toNat + 1 - sc.toNat)).toFinset
            else none
          else some ∅
    | _ => none
  else
    match pyIntHex rs with
    | none => none
    | some c => if 0 ≤ c ∧ c ≤ 0x10FFFF then some {c.toNat} else none

/-! ### Hexadecimal rendering and parsing round trip -/

theorem hexDigitChar_isHexDig {m : Nat} (h : m < 16) :
    isHexDig (hexDigitChar m) = true := by
  interval_cases m <;> decide

theorem hexDigitVal_hexDigitChar {m : Nat} (h : m < 16) :
    hexDigitVal (hexDigitChar m) = m := by
  interval_cases m <;> decide

theorem hexDigits_ne_nil (n : Nat) : hexDigits n ≠ [] := by
  unfold hexDigits
  split <;> simp

theorem hexDigits_hex (n : Nat) : ∀ c ∈ hexDigits n, isHexDig c = true := by
  induction n using hexDigits.induct with
  | case1 n h =>
    unfold hexDigits
    simp only [h, if_true, List.mem_singleton]
    rintro c rfl
    exact hexDigitChar_isHexDig h
  | case2 n h ih =>
    unfold hexDigits
    simp only [h, if_false, List.mem_append, List.mem_singleton]
    rintro c (hc | rfl)
    · exact ih c hc
    · exact hexDigitChar_isHexDig (Nat.mod_lt _ (by omega))

/-- The accumulator step of the hexadecimal digit fold. -/
def hexFold (a : Nat) (c : Char) : Nat := 16 * a + hexDigitVal c

theorem foldl_hexDigits (n : Nat) :
    (hexDigits n).foldl hexFold 0 = n := by
  induction n using hexDigits.induct with
  | case1 n h =>
    unfold hexDigits
    simp only [h, if_true, List.foldl_cons, List.foldl_nil, hexFold]
    rw [hexDigitVal_hexDigitChar h]
    omega
  | case2 n h ih =>
    unfold hexDigits
    simp only [h, if_false, List.foldl_append, List.foldl_cons, List.foldl_nil, ih, hexFold]
    rw [hexDigitVal_hexDigitChar (Nat.mod_lt _ (by omega))]
    omega

theorem hex4_hex (n : Nat) : ∀ c ∈ hex4 n, isHexDig c = true := by
  intro c hc
  rcases List.mem_append.mp hc with hrep | hdig
  · rw [List.eq_of_mem_replicate hrep]
    decide
  · exact hexDigits_hex n c hdig

theorem hex4_two_le (n : Nat) : 2 ≤ (hex4 n).length := by
  have h1 : 1 ≤ (hexDigits n).length :=
    List.length_pos.mpr (hexDigits_ne_nil n)
  simp only [hex4, List.length_append, List.length_replicate]
  omega

theorem foldl_hexFold_replicate (k : Nat) : ∀ ds : List Char,
    (List.replicate k '0' ++ ds).foldl hexFold 0 = ds.foldl hexFold 0 := by
  induction k with
  | zero => intro ds; simp
  | succ k ih =>
    intro ds
    rw [List.replicate_succ, List.cons_append, List.foldl_cons]
    have h0 : hexFold 0 '0' = 0 := by decide
    rw [h0]
    exact ih ds

theorem foldl_hex4 (n : Nat) : (hex4 n).foldl hexFold 0 = n := by
  rw [hex4, foldl_hexFold_replicate]
  exact foldl_hexDigits n

theorem parseUnsigned_of_all (base : Nat) (isD : Char → Bool) (val : Char → Nat)
    (l : List Char) (hne : l ≠ []) (h : ∀ c ∈ l, isD c = true) :
    parseUnsigned base isD val l = some (l.foldl (fun a c => base * a + val c) 0) := by
  match l, hne with
  | c :: cs, _ =>
    have hc : isD c = true := h c (List.mem_cons_self c cs)
    simp only [parseUnsigned, hc, if_true, List.foldl_cons]
    rw [parseDigitsRest_of_all base isD val cs _ (fun x hx => h x (List.mem_cons_of_mem c hx))]
    congr 1
    congr 1
    omega

theorem parseUnsigned_hex4 (n : Nat) :
    parseUnsigned 16 isHexDig hexDigitVal (hex4 n) = some n := by
  have hne : hex4 n ≠ [] := by
    have := hex4_two_le n
    intro hc
    rw [hc] at this
    simp at this
  rw [parseUnsigned_of_all 16 isHexDig hexDigitVal _ hne (hex4_hex n)]
  have : (hex4 n).foldl (fun a c => 16 * a + hexDigitVal c) 0 = (hex4 n).foldl hexFold 0 := rfl
  rw [this, foldl_hex4]

theorem ne_x_of_isHexDig {c : Char} (h : isHexDig c = true) : c ≠ 'x' := by
  intro hc; subst hc; simp [isHexDig] at h

theorem ne_X_of_isHexDig {c : Char} (h : isHexDig c = true) : c ≠ 'X' := by
  intro hc; subst hc; simp [isHexDig] at h

theorem ne_plus_of_isHexDig {c : Char} (h : isHexDig c = true) : c ≠ '+' := by
  intro hc; subst hc; simp [isHexDig] at h

theorem ne_minus_of_isHexDig {c : Char} (h : isHexDig c = true) : c ≠ '-' := by
  intro hc; subst hc; simp [isHexDig] at h

theorem ne_U_of_isHexDig {c : Char} (h : isHexDig c = true) : c ≠ 'U' := by
  intro hc; subst hc; simp [isHexDig] at h

theorem pyHexUnsigned_hex4 (n : Nat) : pyHexUnsigned (hex4 n) = some n := by
  obtain ⟨c0, c1, rest, hsh⟩ : ∃ c0 c1 rest, hex4 n = c0 :: c1 :: rest := by
    have h2 := hex4_two_le n
    match hl : hex4 n with
    | [] => rw [hl] at h2; simp at h2
    | [c] => rw [hl] at h2; simp at h2
    | c0 :: c1 :: rest => exact ⟨c0, c1, rest, rfl⟩
  have hhex := hex4_hex n
  have hc1 : isHexDig c1 = true := by
    apply hhex
    rw [hsh]
    exact List.mem_cons_of_mem _ (List.mem_cons_self c1 rest)
  have hcond : ¬(c0 = '0' ∧ (c1 = 'x' ∨ c1 = 'X')) := by
    rintro ⟨-, hx | hX⟩
    · exact ne_x_of_isHexDig hc1 hx
    · exact ne_X_of_isHexDig hc1 hX
  rw [hsh]
  simp only [pyHexUnsigned]
  rw [if_neg hcond, ← hsh]
  exact parseUnsigned_hex4 n

theorem pyIntHex_hex4 (n : Nat) : pyIntHex (hex4 n) = some (Int.ofNat n) := by
  obtain ⟨c0, cs, hsh⟩ : ∃ c0 cs, hex4 n = c0 :: cs := by
    have h2 := hex4_two_le n
    match hl : hex4 n with
    | [] => rw [hl] at h2; simp at h2
    | c0 :: cs => exact ⟨c0, cs, rfl⟩
  have hc0 : isHexDig c0 = true := by
    apply hex4_hex
    rw [hsh]
    exact List.mem_cons_self c0 cs
  have hp := pyHexUnsigned_hex4 n
  rw [hsh] at hp ⊢
  simp only [pyIntHex, ne_plus_of_isHexDig hc0, ne_minus_of_isHexDig hc0, if_false, hp]
  rfl

/-! ### String munging lemmas for the range expressions -/

theorem removeUPlus_cons_UPlus (body : List Char) :
    removeUPlus ('U' :: '+' :: body) = removeUPlus body := by
  simp [removeUPlus]

theorem removeUPlus_no_U (l : List Char) (h : 'U' ∉ l) : removeUPlus l = l := by
  induction l using removeUPlus.induct with
  | case1 => simp [removeUPlus]
  | case2 c => simp [removeUPlus]
  | case3 c1 c2 rest hc ih =>
    obtain ⟨rfl, rfl⟩ := hc
    simp at h
  | case4 c1 c2 rest hc ih =>
    simp only [removeUPlus]
    rw [if_neg hc, ih (by simp at h ⊢; tauto)]

theorem splitDash_nil : splitDash [] = [[]] := by
  simp [splitDash]

theorem splitDash_cons_dash (rest : List Char) :
    splitDash ('-' :: rest) = [] :: splitDash rest := by
  simp [splitDash]

theorem splitDash_cons_of_ne (c : Char) (rest : List Char) (hc : ¬(c = '-')) :
    splitDash (c :: rest) =
      match splitDash rest with
      | [] => [[c]]
      | t :: ts => (c :: t) :: ts := by
  conv_lhs => simp only [splitDash]
  rw [if_neg hc]

theorem splitDash_no_dash (l : List Char) (h : '-' ∉ l) : splitDash l = [l] := by
  induction l with
  | nil => exact splitDash_nil
  | cons c cs ih =>
    have hc : ¬(c = '-') := by simp at h; tauto
    have hcs : '-' ∉ cs := by simp at h; tauto
    rw [splitDash_cons_of_ne c cs hc, ih hcs]

theorem splitDash_append (a b : List Char) (h : '-' ∉ a) :
    splitDash (a ++ '-' :: b) = a :: splitDash b := by
  induction a with
  | nil =>
    simpa using splitDash_cons_dash b
  | cons c cs ih =>
    have hc : ¬(c = '-') := by simp at h; tauto
    have hcs : '-' ∉ cs := by simp at h; tauto
    rw [List.cons_append, splitDash_cons_of_ne c _ hc, ih hcs]

/-- Claim C8: a range expression built from the literal form U+HHHH
maps to exactly the singleton of that code point, and U+HHHH-HHHH to
exactly the inclusive set of code points from start to end (which is
empty when start exceeds end, since Finset.Icc a b is then empty);
hex4 renders a code point the way the expressions write it, as
zero-padded uppercase hex. -/
theorem unicode_range_to_chars_expands :
    (∀ a b : Nat, a ≤ 0x10FFFF → b ≤ 0x10FFFF →
      unicode_range_to_chars ("U+".data ++ hex4 a ++ '-' :: hex4 b) =
        some (Finset.Icc a b)) ∧
    (∀ a : Nat, a ≤ 0x10FFFF →
      unicode_range_to_chars ("U+".data ++ hex4 a) = some ({a} : Finset Nat)) := by
  constructor
  · intro a b ha hb
    have hnoU : 'U' ∉ (hex4 a ++ '-' :: hex4 b) := by
      intro hmem
      rcases List.mem_append.mp hmem with h1 | h2
      · have := hex4_hex a 'U' h1; simp [isHexDig] at this
      · rcases List.mem_cons.mp h2 with h3 | h4
        · exact absurd h3 (by decide)
        · have := hex4_hex b 'U' h4; simp [isHexDig] at this
    have hrm : removeUPlus ("U+".data ++ hex4 a ++ '-' :: hex4 b) =
        hex4 a ++ '-' :: hex4 b := by
      rw [List.append_assoc]
      show removeUPlus ('U' :: '+' :: (hex4 a ++ '-' :: hex4 b)) = _
      rw [removeUPlus_cons_UPlus]
      exact removeUPlus_no_U _ hnoU
    have hnda : '-' ∉ hex4 a := by
      intro hc; have := hex4_hex a '-' hc; simp [isHexDig] at this
    have hndb : '-' ∉ hex4 b := by
      intro hc; have := hex4_hex b '-' hc; simp [isHexDig] at this
    have hdin : '-' ∈ hex4 a ++ '-' :: hex4 b :=
      List.mem_append.mpr (Or.inr (List.mem_cons_self _ _))
    simp only [unicode_range_to_chars]
    rw [hrm]
    rw [if_pos hdin]
    rw [splitDash_append _ _ hnda, splitDash_no_dash _ hndb]
    simp only [pyIntHex_hex4, Int.ofNat_eq_natCast]
    by_cases hab : a ≤ b
    · rw [if_pos (by omega : (a : Int) ≤ (b : Int))]
      rw [if_pos ⟨by omega, by omega⟩]
      congr 1
      ext x
      simp [List.mem_range']
      constructor
      · rintro ⟨i, hi, rfl⟩
        omega
      · intro hx
        exact ⟨x - a, by omega, by omega⟩
    · rw [if_neg (by omega : ¬((a : Int) ≤ (b : Int)))]
      rw [Finset.Icc_eq_empty (by omega : ¬(a ≤ b))]
  · intro a ha
    have hnoU : 'U' ∉ hex4 a := by
      intro hc; have := hex4_hex a 'U' hc; simp [isHexDig] at this
    have hrm : removeUPlus ("U+".data ++ hex4 a) = hex4 a := by
      show removeUPlus ('U' :: '+' :: hex4 a) = _
      rw [removeUPlus_cons_UPlus]
      exact removeUPlus_no_U _ hnoU
    have hnd : '-' ∉ hex4 a := by
      intro hc; have := hex4_hex a '-' hc; simp [isHexDig] at this
    simp only [unicode_range_to_chars]
    rw [hrm]
    rw [if_neg hnd]
    simp only [pyIntHex_hex4, Int.ofNat_eq_natCast]
    rw [if_pos ⟨by omega, by omega⟩]
    simp

/-- Claim C8 witness: the concrete instances named by the claim:
U+0030-0039 expands to the ten digit code points 48..57, U+00B0 to
the singleton 176 (the degree sign), and the reversed range
U+0039-0030 to the empty set. -/
theorem unicode_range_to_chars_expands_witness :
    unicode_range_to_chars ("U+0030-0039".data) = some (Finset.Icc 48 57) ∧
    unicode_range_to_chars ("U+00B0".data) = some ({176} : Finset Nat) ∧
    unicode_range_to_chars ("U+0039-0030".data) = some (∅ : Finset Nat) := by
  have h := unicode_range_to_chars_expands
  refine ⟨?_, ?_, ?_⟩
  · have h1 := h.1 48 57 (by norm_num) (by norm_num)
    have he : ("U+".data ++ hex4 48 ++ '-' :: hex4 57) = "U+0030-0039".data := by
      have e1 : hex4 48 = "0030".data := by simp [hex4, hexDigits, hexDigitChar]
      have e2 : hex4 57 = "0039".data := by simp [hex4, hexDigits, hexDigitChar]
      rw [e1, e2]
      decide
    rw [← he]
    exact h1
  · have h1 := h.2 176 (by norm_num)
    have he : ("U+".data ++ hex4 176) = "U+00B0".data := by
      have e1 : hex4 176 = "00B0".data := by simp [hex4, hexDigits, hexDigitChar]
      rw [e1]
      decide
    rw [← he]
    exact h1
  · have h1 := h.1 57 48 (by norm_num) (by norm_num)
    have he : ("U+".data ++ hex4 57 ++ '-' :: hex4 48) = "U+0039-0030".data := by
      have e1 : hex4 48 = "0030".data := by simp [hex4, hexDigits, hexDigitChar]
      have e2 : hex4 57 = "0039".data := by simp [hex4, hexDigits, hexDigitChar]
      rw [e1, e2]
      decide
    rw [show Finset.Icc (57 : Nat) 48 = (∅ : Finset Nat) from
      Finset.Icc_eq_empty (by norm_num)] at h1
    rw [← he]
    exact h1

/-! ### Character collection (config.py, collect_characters)

The configuration dictionary is modelled structurally: the optional
characters table with its three optional sources, and the two
optional boolean options read with dict.get defaults.  The inline
string and file contents are sequences of code points; file system
access is a function from paths to optional contents (none: the path
does not exist).  Path.resolve normalisation is not modelled beyond
joining a relative path to the configuration directory; a
raised exception from a malformed range expression is modelled by
none. -/

/-- The characters table of the configuration. -/
structure CharConfig where
  inline : Option (List Nat)
  file : Option (List Char)
  unicode_ranges : Option (List (List Char))

/-- The configuration keys collect_characters reads. -/
structure CollectConfig where
  characters : Option CharConfig
  deduplicate_chars : Option Bool
  strip_whitespace : Option Bool

/-- POSIX absolute-path test used by Path.is_absolute. -/
def isAbsolutePath (p : List Char) : Bool := listStartsWith ['/'] p

/-- Resolution of the characters.file path: relative paths are joined
to the configuration directory when one is given. -/
def resolvePath (config_dir : Option (List Char)) (p : List Char) : List Char :=
  match config_dir with
  | some d => if isAbsolutePath p then p else d ++ '/' :: p
  | none => p

/-- The loop adding each Unicode range expression's characters; a
range whose expansion raises propagates the exception (none). -/
def addRanges (acc : Finset Nat) : List (List Char) → Option (Finset Nat)
  | [] => some acc
  | r :: rs =>
    match unicode_range_to_chars r with
    | none => none
    | some s => addRanges (acc ∪ s) rs

/-- collect_characters: unions the inline characters, the characters
of the referenced file when it exists (silently skipped otherwise)
and the expanded Unicode ranges; then applies the deduplicate_chars
option (set(chars) on a set: the identity) and the strip_whitespace
option. -/
def collect_characters (config : CollectConfig) (config_dir : Option (List Char))
    (fs : List Char → Option (List Nat)) : Option (Finset Nat) :=
  let cc := config.characters.getD ⟨none, none, none⟩
  let chars1 : Finset Nat :=
    match cc.inline with
    | some s => s.toFinset
    | none => ∅
  let chars2 : Finset Nat :=
    match cc.file with
    | some p =>
      match fs (resolvePath config_dir p) with
      | some content => chars1 ∪ content.toFinset
      | none => chars1
    | none => chars1
  let ranged : Option (Finset Nat) :=
    match cc.unicode_ranges with
    | some rs => addRanges chars2 rs
    | none => some chars2
  ranged.map (fun chars3 =>
    let chars4 := if config.deduplicate_chars.getD true then chars3 else chars3
    if config.strip_whitespace.getD false then
      chars4.filter (fun cp => isPySpaceCp cp = false)
    else chars4)

/-- Claim C9: the deduplicate_chars flag has no observable effect on
collect_characters; with every other input equal, the collected set
is the same whether the flag is absent, true or false (the collected
characters already form a set, and set(chars) on a set changes
nothing). -/
theorem collect_characters_deduplicate_no_effect
    (characters : Option CharConfig) (strip d1 d2 : Option Bool)
    (config_dir : Option (List Char)) (fs : List Char → Option (List Nat)) :
    collect_characters ⟨characters, d1, strip⟩ config_dir fs =
      collect_characters ⟨characters, d2, strip⟩ config_dir fs := by
  simp only [collect_characters, ite_self]

theorem isSome_map_of_isSome {α β : Type} (x : Option α) (f : α → β)
    (h : x.isSome = true) : (x.map f).isSome = true := by
  cases x with
  | none => simp at h
  | some a => rfl

theorem addRanges_isSome (rs : List (List Char)) : ∀ acc : Finset Nat,
    (∀ r ∈ rs, (unicode_range_to_chars r).isSome = true) →
    (addRanges acc rs).isSome = true := by
  induction rs with
  | nil => intro acc _; rfl
  | cons r rest ih =>
    intro acc h
    have hr := h r (List.mem_cons_self r rest)
    unfold addRanges
    cases hu : unicode_range_to_chars r with
    | none => rw [hu] at hr; simp at hr
    | some s => exact ih _ (fun x hx => h x (List.mem_cons_of_mem r hx))

/-- Claim C10: when the characters.file key names a path that does
not exist after resolution against the configuration directory,
collect_characters silently skips the file source: it behaves exactly
as if no file were configured, and (provided every configured range
expression expands without raising) it succeeds, returning the union
of the inline characters and the range characters. -/
theorem collect_characters_missing_file_skipped
    (inline : Option (List Nat)) (p : List Char)
    (ranges : Option (List (List Char))) (dedup strip : Option Bool)
    (config_dir : Option (List Char)) (fs : List Char → Option (List Nat))
    (hmiss : fs (resolvePath config_dir p) = none) :
    collect_characters ⟨some ⟨inline, some p, ranges⟩, dedup, strip⟩ config_dir fs =
      collect_characters ⟨some ⟨inline, none, ranges⟩, dedup, strip⟩ config_dir fs ∧
    ((∀ r ∈ ranges.getD [], (unicode_range_to_chars r).isSome = true) →
      (collect_characters ⟨some ⟨inline, some p, ranges⟩, dedup, strip⟩
          config_dir fs).isSome = true) := by
  constructor
  · simp [collect_characters, hmiss]
  · intro hr
    simp only [collect_characters, Option.getD_some, hmiss]
    cases ranges with
    | none => simp
    | some rs =>
      simp only [Option.getD_some] at hr
      exact isSome_map_of_isSome _ _ (addRanges_isSome rs _ hr)

/-- Claim C10 witness: with only the inline source configured besides
a missing file, collection equals collection without the file key and
succeeds. -/
theorem collect_characters_missing_file_skipped_witness :
    collect_characters ⟨some ⟨some [65], some ("missing.txt".data), none⟩, none, none⟩
        none (fun _ => none) =
      collect_characters ⟨some ⟨some [65], none, none⟩, none, none⟩ none (fun _ => none) ∧
    ((∀ r ∈ (none : Option (List (List Char))).getD [],
        (unicode_range_to_chars r).isSome = true) →
      (collect_characters ⟨some ⟨some [65], some ("missing.txt".data), none⟩, none, none⟩
          none (fun _ => none)).isSome = true) :=
  collect_characters_missing_file_skipped (some [65]) ("missing.txt".data) none none none
    none (fun _ => none) rfl

/-! ### Orchestrator (generator.py, generate_font)

The external stages (fontTools subsetting, otf2bdf, the in-process
encoding repair whose outcome depends on the rasterised document, and
bdftopcf) are abstracted as an oracle assigning each size the success
of each stage.  File-system side effects (mkdir, unlink of
intermediates) do not influence the returned value or the manifest
and are not modelled.  The manifest is written at most once, after
the size loop; this single optional write is modelled by the Option
in the result. -/

/-- The output table of the configuration. -/
structure OutputConfig where
  formats : List String
  font_family : Option String
  metadata : Option Bool

/-- The configuration keys generate_font reads. -/
structure GenConfig where
  source_font : String
  sizes : List Nat
  output : OutputConfig

/-- Per-size success of the four pipeline stages. -/
structure StageOutcome where
  subset_ok : Bool
  bdf_ok : Bool
  fix_ok : Bool
  pcf_ok : Bool

/-- The manifest document generate_metadata builds. -/
structure Manifest where
  version : String
  source_font : String
  character_count : Nat
  characters : List Nat
  unicode_ranges : List (List Char)
  sizes : List Nat
  output_directory : String
  generated_files : List String
  formats : List String
  debug_info : Option String

/-- Decimal rendering of a natural number as a Lean string. -/
def natStr (n : Nat) : String := ⟨decDigits n⟩

/-- generate_metadata: the manifest dictionary; the characters entry
is the sorted concatenation, unicode_ranges the sorted U+XXXX forms,
and debug_info is present exactly when one was provided. -/
def generate_metadata (config : GenConfig) (chars : Finset Nat)
    (generated_files : List String) (output_directory : String)
    (debug_info : Option String) : Manifest :=
  { version := "1.0"
    source_font := config.source_font
    character_count := chars.card
    characters := sortedCodepoints chars
    unicode_ranges := (sortedCodepoints chars).map (fun cp => "U+".data ++ hex4 cp)
    sizes := config.sizes
    output_directory := output_directory
    generated_files := generated_files
    formats := config.output.formats
    debug_info := debug_info }

/-- The body of the size loop: which basenames one size contributes.
A subsetting failure skips the size; a rasterisation or repair
failure deletes the intermediates and skips the size; the bdf name is
kept when the format list asks for bdf; the pcf conversion is
attempted only when asked for and its failure leaves the bdf
artifact untouched. -/
def processSize (cfg : GenConfig) (env : Nat → StageOutcome) (size : Nat) :
    List String :=
  let font_family := cfg.output.font_family.getD "custom"
  let r := env size
  if ¬r.subset_ok then []
  else
    let keep_bdf := "bdf" ∈ cfg.output.formats
    let need_pcf := "pcf" ∈ cfg.output.formats
    if ¬r.bdf_ok then []
    else if ¬r.fix_ok then []
    else
      (if keep_bdf then [font_family ++ "-" ++ natStr size ++ "pt.bdf"] else []) ++
      (if need_pcf ∧ r.pcf_ok then [font_family ++ "-" ++ natStr size ++ "pt.pcf"] else [])

/-- generate_font: runs the per-size pipeline over all configured
sizes, then writes the manifest when (and only when) the metadata
option is enabled, and returns the produced basenames. -/
def generate_font (cfg : GenConfig) (chars : Finset Nat) (output_dir : String)
    (env : Nat → StageOutcome) (debug_info : Option String) :
    List String × Option Manifest :=
  let font_family := cfg.output.font_family.getD "custom"
  let font_output_dir := output_dir ++ "/" ++ font_family
  let generated_files := (cfg.sizes.map (processSize cfg env)).flatten
  if cfg.output.metadata.getD true then
    (generated_files,
      some (generate_metadata cfg chars generated_files font_output_dir debug_info))
  else (generated_files, none)

/-- Claim C4 counterexample: a run whose only size fails at the
subsetting stage produces no artifact, yet with metadata enabled
(the default) the manifest is still written; the claim predicted that
no manifest is written when no artifact was produced. -/
theorem generate_font_manifest_without_artifacts :
    (generate_font ⟨"font.ttf", [16], ⟨["bdf"], none, none⟩⟩ (∅ : Finset Nat) "out"
        (fun _ => ⟨false, false, false, false⟩) none).1 = [] ∧
    ((generate_font ⟨"font.ttf", [16], ⟨["bdf"], none, none⟩⟩ (∅ : Finset Nat) "out"
        (fun _ => ⟨false, false, false, false⟩) none).2).isSome = true ∧
    (⟨"font.ttf", [16], ⟨["bdf"], none, none⟩⟩ : GenConfig).output.metadata.getD true
      = true := by
  refine ⟨?_, rfl, rfl⟩
  simp [generate_font, processSize]

/-- Claim C4 amended: generate_font writes the manifest exactly once
if and only if metadata output is enabled, regardless of whether any
artifact was produced; when written, the manifest lists exactly the
returned basenames. -/
theorem generate_font_manifest_iff_metadata (cfg : GenConfig) (chars : Finset Nat)
    (output_dir : String) (env : Nat → StageOutcome) (debug_info : Option String) :
    ((generate_font cfg chars output_dir env debug_info).2.isSome
        = cfg.output.metadata.getD true) ∧
    ∀ m, (generate_font cfg chars output_dir env debug_info).2 = some m →
      m.generated_files = (generate_font cfg chars output_dir env debug_info).1 := by
  by_cases hm : cfg.output.metadata.getD true = true
  · constructor
    · simp [generate_font, hm]
    · intro m hsome
      simp only [generate_font, hm, if_true] at hsome ⊢
      cases hsome
      rfl
  · have hm' : cfg.output.metadata.getD true = false := by
      revert hm
      cases cfg.output.metadata.getD true <;> simp
    constructor
    · simp [generate_font, hm']
    · intro m hsome
      simp [generate_font, hm'] at hsome

/-- Claim C4 amended witness: the manifest presence equals the
metadata option on a concrete successful single-size run, and the
manifest written there lists exactly the returned basenames. -/
theorem generate_font_manifest_iff_metadata_witness :
    ((generate_font ⟨"font.ttf", [16], ⟨["bdf"], none, none⟩⟩ ({65} : Finset Nat) "out"
          (fun _ => ⟨true, true, true, true⟩) none).2.isSome
        = (⟨"font.ttf", [16], ⟨["bdf"], none, none⟩⟩ : GenConfig).output.metadata.getD true) ∧
    ((generate_metadata ⟨"font.ttf", [16], ⟨["bdf"], none, none⟩⟩ ({65} : Finset Nat)
          ((generate_font ⟨"font.ttf", [16], ⟨["bdf"], none, none⟩⟩ ({65} : Finset Nat) "out"
            (fun _ => ⟨true, true, true, true⟩) none).1) "out/custom" none).generated_files
        = (generate_font ⟨"font.ttf", [16], ⟨["bdf"], none, none⟩⟩ ({65} : Finset Nat) "out"
            (fun _ => ⟨true, true, true, true⟩) none).1) :=
  ⟨(generate_font_manifest_iff_metadata ⟨"font.ttf", [16], ⟨["bdf"], none, none⟩⟩
      ({65} : Finset Nat) "out" (fun _ => ⟨true, true, true, true⟩) none).1,
    (generate_font_manifest_iff_metadata ⟨"font.ttf", [16], ⟨["bdf"], none, none⟩⟩
      ({65} : Finset Nat) "out" (fun _ => ⟨true, true, true, true⟩) none).2 _ rfl⟩

end CpFontGen
